import Mathlib

/-!
# Shallow embedding of the nmigen cxxsim simulator kernel

This file embeds the Python code of `nmigen/sim/_core.py` (classes `Process`,
`Timeline`, `SimulatorCore`) and `nmigen/sim/cxxsim.py` (classes `_SignalState`,
`_SimulatorState`, `Simulator`) and proves properties of the embedded code.

Conventions of the embedding:
* Python floats used for simulated time are modelled as rationals (`ℚ`).
* Python dictionaries keyed by process objects are modelled as association
  lists keyed by a process id (`ℕ`); Python dict iteration order is insertion
  order, which an association list preserves.
* Python exceptions and failing `assert` statements are modelled by returning
  the untouched state together with an error message (`Option String`), or by
  `Option` where only success/failure matters.
* The compiled cxxrtl C library behind `self.cxxlib` is not part of the
  repository; its `eval`/`commit` entry points are modelled from the spec
  (see `cxxlibEval` and `cxxlibCommit`).
* A user process is a coroutine whose `run` method performs signal writes
  through the simulator state; the embedding records the writes a process
  performs as a list `prog` of (slot index, value) pairs, and instruments each
  process with a counter `runs` of how many times `run` was invoked.
-/

/-- One backing part of a signal, as exposed by `cxxrtl_object` in
`_cxxrtl_ctypes.py`: a word with a `curr` and a staged `next` value, placed at
bit offset `lsb_at` of the signal and `width` bits wide. -/
structure CxxrtlObject where
  width : ℕ
  lsb_at : ℕ
  curr : ℕ
  next : ℕ
deriving DecidableEq, Repr, Inhabited

/-- `_SignalState` from `cxxsim.py`: a signal together with the list of parts
backing it. -/
structure SignalState where
  parts : List CxxrtlObject
deriving DecidableEq, Repr, Inhabited

/-- The `curr` property of `_SignalState`: bitwise OR of the `curr` word of
every part, with no positional shifting. -/
def SignalState.currVal (s : SignalState) : ℕ :=
  s.parts.foldl (fun value part => value ||| part.curr) 0

/-- The `next` property of `_SignalState`: bitwise OR of the `next` word of
every part, with no positional shifting. -/
def SignalState.nextVal (s : SignalState) : ℕ :=
  s.parts.foldl (fun value part => value ||| part.next) 0

/-- `_SignalState.set`: stage `value`, unshifted, into the `next` field of
every backing part. -/
def SignalState.set (s : SignalState) (value : ℕ) : SignalState :=
  ⟨s.parts.map (fun part => { part with next := value })⟩

/-- Reference reassembly of a signal value from its parts, placing each part
at its bit offset `lsb_at`.  This is the spec-side definition used to compare
against `SignalState.currVal`; it is not what the code computes. -/
def SignalState.assembledSpec (s : SignalState) : ℕ :=
  s.parts.foldl (fun value part => value + (part.curr <<< part.lsb_at)) 0

/-- `Process` from `_core.py`, instrumented: `pid` identifies the process,
`prog` is the list of (slot index, value) writes its `run` method performs,
and `runs` counts invocations of `run`. -/
structure Proc where
  pid : ℕ
  is_comb : Bool
  runnable : Bool
  passive : Bool
  prog : List (ℕ × ℕ)
  runs : ℕ
deriving DecidableEq, Repr, Inhabited

/-- `Process.reset` from `_core.py`: `runnable` becomes `is_comb` and
`passive` becomes `True`. -/
def Proc.reset (p : Proc) : Proc :=
  { p with runnable := p.is_comb, passive := true }

/-- `Timeline` from `_core.py`: current time `now` and the pending deadlines,
a mapping from process to its deadline (`none` standing for Python `None`,
an "immediately" deadline). -/
structure Timeline where
  now : ℚ
  deadlines : List (ℕ × Option ℚ)
deriving DecidableEq, Repr, Inhabited

/-- `Timeline.reset`: `now` returns to `0.0` and the deadlines are cleared. -/
def Timeline.reset (_tl : Timeline) : Timeline :=
  { now := 0, deadlines := [] }

/-- `Timeline.at` from `_core.py` (renamed: `at` is reserved in Lean).
`assert process not in self.deadlines; self.deadlines[process] = run_at`.
The second component is `false` when the assertion fails; in that case the
timeline is returned untouched. -/
def Timeline.atTime (tl : Timeline) (run_at : Option ℚ) (pid : ℕ) : Timeline × Bool :=
  if tl.deadlines.any (fun e => e.1 == pid) then
    (tl, false)
  else
    ({ tl with deadlines := tl.deadlines ++ [(pid, run_at)] }, true)

/-- `Timeline.delay`: schedule at `now + delay_by`, or at `now` when
`delay_by` is `None`. -/
def Timeline.delay (tl : Timeline) (delay_by : Option ℚ) (pid : ℕ) : Timeline × Bool :=
  match delay_by with
  | none => tl.atTime (some tl.now) pid
  | some d => tl.atTime (some (tl.now + d)) pid

/-- The scanning loop of `Timeline.advance`: walk the deadline entries in
order, carrying the accumulated `nearest_processes` list and
`nearest_deadline`.  A `none` deadline clears the accumulator when a nearest
deadline was already found, adds its process, sets the nearest deadline to
`now` and stops the walk (Python `break`).  A timed deadline at or before the
current nearest first asserts `deadline >= now` (`none` result on failure),
clears the accumulator when strictly earlier, and becomes the new nearest. -/
def advanceScan (now : ℚ) : List (ℕ × Option ℚ) → List ℕ → Option ℚ →
    Option (List ℕ × Option ℚ)
  | [], acc, nd => some (acc, nd)
  | (pid, none) :: _, acc, nd =>
      some ((if nd.isSome then [pid] else acc ++ [pid]), some now)
  | (pid, some d) :: rest, acc, nd =>
      match nd with
      | none =>
          if now ≤ d then advanceScan now rest (acc ++ [pid]) (some d) else none
      | some m =>
          if d ≤ m then
            if now ≤ d then
              advanceScan now rest ((if d < m then [] else acc) ++ [pid]) (some d)
            else none
          else advanceScan now rest acc (some m)

/-- `Timeline.advance` from `_core.py`.  Returns `none` when the internal
assertion fails; otherwise the updated timeline, the list of processes marked
runnable (and deleted from the deadlines), and the boolean result. -/
def Timeline.advance (tl : Timeline) : Option (Timeline × List ℕ × Bool) :=
  match advanceScan tl.now tl.deadlines [] none with
  | none => none
  | some (pids, nd) =>
      if pids.isEmpty then
        some (tl, [], false)
      else
        some ({ now := nd.getD tl.now,
                deadlines := tl.deadlines.filter (fun e => !(pids.contains e.1)) },
              pids, true)

/-- The whole simulator state of `cxxsim.Simulator`: the timeline, the
process set, the signal slots, the trigger table of `_SimulatorState`
(mapping (process id, slot index) to an optional trigger value), and the open
VCD writers with the ticks sampled so far. -/
structure SimState where
  timeline : Timeline
  procs : List Proc
  slots : List SignalState
  triggers : List ((ℕ × ℕ) × Option ℕ)
  vcdWriters : ℕ
  vcdSamples : List ℤ
deriving DecidableEq, Repr, Inhabited

/-- Write `value` to slot `idx` through `_SignalState.set`. -/
def writeSlot (slots : List SignalState) (idx value : ℕ) : List SignalState :=
  slots.set idx ((slots.getD idx ⟨[]⟩).set value)

/-- Perform the signal writes of one process `run` invocation. -/
def applyProg (prog : List (ℕ × ℕ)) (slots : List SignalState) : List SignalState :=
  prog.foldl (fun sl iv => writeSlot sl iv.1 iv.2) slots

/-- The first phase of `Simulator._real_step`:
`for process in self._processes: if process.runnable:
process.runnable = False; process.run()`, performed once over the process
list in order. -/
def runProcsAux : List Proc → List SignalState → List Proc × List SignalState
  | [], slots => ([], slots)
  | p :: rest, slots =>
      if p.runnable then
        let r := runProcsAux rest (applyProg p.prog slots)
        ({ p with runnable := false, runs := p.runs + 1 } :: r.1, r.2)
      else
        let r := runProcsAux rest slots
        (p :: r.1, r.2)

/-- Modelled from the spec: `cxxlib.eval` of the compiled cxxrtl library is
not in the repository; it evaluates the compiled design's combinational
logic.  Its effect on the Python-visible part words is opaque to the Python
code, and the claims under verification concern only the Python control flow
around it, so it is modelled as the identity. -/
def cxxlibEval (slots : List SignalState) : List SignalState :=
  slots

/-- Modelled from the spec: `cxxlib.commit` of the compiled cxxrtl library is
not in the repository; per the spec it commits every staged `next` value to
`curr` and reports whether any signal changed. -/
def cxxlibCommit (slots : List SignalState) : List SignalState × Bool :=
  (slots.map (fun ss => ⟨ss.parts.map (fun pt => { pt with curr := pt.next })⟩),
   slots.any (fun ss => ss.parts.any (fun pt => pt.next != pt.curr)))

/-- The trigger condition of `_SimulatorState.commit`:
`trigger is None and next != curr or trigger is not None and next == trigger`. -/
def triggerCond (slots : List SignalState) (idx : ℕ) (trig : Option ℕ) : Bool :=
  match trig with
  | none => (slots.getD idx ⟨[]⟩).nextVal != (slots.getD idx ⟨[]⟩).currVal
  | some v => (slots.getD idx ⟨[]⟩).nextVal == v

/-- The marking loop of `_SimulatorState.commit`: for every
`(process, signal index) -> trigger` entry whose condition holds, set
`process.runnable = True`. -/
def commitMark (trigs : List ((ℕ × ℕ) × Option ℕ)) (slots : List SignalState)
    (procs : List Proc) : List Proc :=
  trigs.foldl
    (fun ps e =>
      if triggerCond slots e.1.2 e.2 then
        ps.map (fun p => if p.pid == e.1.1 then { p with runnable := true } else p)
      else ps)
    procs

/-- `_SimulatorState.commit`: run the trigger marking loop against the
pre-commit slot values, then commit through the cxxrtl library and return
whether anything changed. -/
def SimState.commit (s : SimState) : SimState × Bool :=
  let procs' := commitMark s.triggers s.slots s.procs
  let r := cxxlibCommit s.slots
  ({ s with procs := procs', slots := r.1 }, r.2)

/-- The settling loop of `Simulator._real_step`:
`while True: self._state.eval(); if not self._state.commit(): break`,
with explicit fuel; `none` means the loop did not terminate within `fuel`
iterations (an unstable combinatorial loop never returns). -/
def settleLoop : ℕ → SimState → Option SimState
  | 0, _ => none
  | fuel + 1, s =>
      let s1 := { s with slots := cxxlibEval s.slots }
      let r := s1.commit
      if r.2 then settleLoop fuel r.1 else some r.1

/-- Python `int()` applied to a float: truncation toward zero. -/
def pyInt (q : ℚ) : ℤ :=
  if 0 ≤ q then ⌊q⌋ else ⌈q⌉

/-- The VCD sampling epilogue of `Simulator._real_step`: for every open
writer, sample at `int(self._timeline.now * 10 ** 10)` and append the
serialized delta to the sink. -/
def vcdSampleAll (s : SimState) : SimState :=
  { s with vcdSamples :=
      s.vcdSamples ++ List.replicate s.vcdWriters (pyInt (s.timeline.now * 10 ^ 10)) }

/-- `Simulator._real_step`: run every runnable process once (clearing its
flag first), then settle through the eval/commit loop, then sample the open
VCD writers. -/
def realStep (fuel : ℕ) (s : SimState) : Option SimState :=
  let r := runProcsAux s.procs s.slots
  match settleLoop fuel { s with procs := r.1, slots := r.2 } with
  | none => none
  | some s2 => some (vcdSampleAll s2)

/-- `Simulator.reset`: reset the cxxrtl state (the slot table is cleared and
the design handle recreated; note the trigger table is kept), reset the
timeline, and reset every process. -/
def SimState.reset (s : SimState) : SimState :=
  { s with slots := [], timeline := s.timeline.reset, procs := s.procs.map Proc.reset }

/-- `Simulator.write_vcd`: raises unless simulated time is exactly zero;
otherwise a writer is registered.  On failure the state is untouched. -/
def writeVcd (s : SimState) : SimState × Option String :=
  if s.timeline.now ≠ 0 then
    (s, some "Cannot start writing waveforms after advancing simulation time")
  else
    ({ s with vcdWriters := s.vcdWriters + 1 }, none)

/-- `SimulatorCore` state relevant to `add_clock`: the named clock domains of
the root fragment (name to domain id), the set of domains already driven by a
clock, and the registered processes. -/
structure CoreState where
  domains : List (String × ℕ)
  clocked : List ℕ
  processes : List ℕ
deriving DecidableEq, Repr, Inhabited

/-- The tail of `SimulatorCore.add_clock` once the domain is resolved: raise
when the domain already has a clock driving it, otherwise register the clock
process and record the domain as clocked. -/
def addClockResolved (st : CoreState) (cd : ℕ) (newPid : ℕ) : CoreState × Option String :=
  if st.clocked.contains cd then
    (st, some "Domain already has a clock driving it")
  else
    ({ st with processes := st.processes ++ [newPid], clocked := st.clocked ++ [cd] },
     none)

/-- `SimulatorCore.add_clock`: a `ClockDomain` argument is used directly; a
string is looked up in the root fragment's domains, and when absent either
returns silently (`if_exists`) or raises. -/
def addClock (st : CoreState) (domain : String ⊕ ℕ) (if_exists : Bool)
    (newPid : ℕ) : CoreState × Option String :=
  match domain with
  | Sum.inr cd => addClockResolved st cd newPid
  | Sum.inl name =>
      match st.domains.lookup name with
      | some cd => addClockResolved st cd newPid
      | none =>
          if if_exists then (st, none)
          else (st, some "Domain is not present in simulation")

/-! ## Helper lemmas -/

lemma foldl_or_const (v : ℕ) :
    ∀ (l : List CxxrtlObject) (a : ℕ), l ≠ [] →
      l.foldl (fun x _ => x ||| v) a = a ||| v := by
  intro l
  induction l with
  | nil => intro a h; exact absurd rfl h
  | cons b t ih =>
      intro a _
      cases t with
      | nil => rfl
      | cons c u =>
          have h2 := ih (a ||| v) (by simp)
          simpa [List.foldl_cons, Nat.or_assoc, Nat.or_self] using h2

lemma nextVal_set (s : SignalState) (v : ℕ) (h : s.parts ≠ []) :
    (s.set v).nextVal = v := by
  unfold SignalState.set SignalState.nextVal
  rw [List.foldl_map]
  have := foldl_or_const v s.parts 0 h
  simpa [Nat.zero_or] using this

/-! ## C10: signal value assembly from parts -/

/-- A signal state backed by two parts at offsets 0 and 32, used to examine
multi-part behaviour. -/
def c10Two : SignalState := ⟨[⟨32, 0, 0, 0⟩, ⟨32, 32, 0, 0⟩]⟩

/-- A signal state backed by two parts whose OR-based readout differs from
the positional reassembly. -/
def c10Multi : SignalState := ⟨[⟨32, 0, 1, 1⟩, ⟨32, 32, 1, 1⟩]⟩

/-- C10 counterexample: for a signal backed by two parts, writing 5 and
reading the staged value back returns exactly 5, so read-back-what-you-wrote
is not exact "only" for signals backed by a single part. -/
theorem c10_counterexample :
    c10Two.parts.length = 2 ∧ (c10Two.set 5).nextVal = 5 := by
  decide

/-- C10 (amended): the staged read-back `(set v).next` is exact for every
signal with at least one backing part, since the same unshifted value is OR-ed
with itself across the parts; positional reassembly agrees with the OR-based
readout for a single part at offset zero, but not in general for several
parts. -/
theorem c10_thm :
    (∀ (s : SignalState) (v : ℕ), s.parts ≠ [] → (s.set v).nextVal = v) ∧
    (∀ pt : CxxrtlObject, pt.lsb_at = 0 →
      SignalState.currVal ⟨[pt]⟩ = SignalState.assembledSpec ⟨[pt]⟩) ∧
    SignalState.currVal c10Multi ≠ SignalState.assembledSpec c10Multi := by
  refine ⟨fun s v h => nextVal_set s v h, fun pt h => ?_, by decide⟩
  simp [SignalState.currVal, SignalState.assembledSpec, h, Nat.shiftLeft_zero,
    Nat.zero_or]

/-- C10 witness: the amended theorem evaluated at concrete one-part signals. -/
theorem c10_witness :
    (SignalState.set ⟨[⟨1, 0, 0, 0⟩]⟩ 7).nextVal = 7 ∧
    SignalState.currVal ⟨[⟨8, 0, 3, 3⟩]⟩ = SignalState.assembledSpec ⟨[⟨8, 0, 3, 3⟩]⟩ :=
  ⟨c10_thm.1 ⟨[⟨1, 0, 0, 0⟩]⟩ 7 (by decide), c10_thm.2.1 ⟨8, 0, 3, 3⟩ rfl⟩

/-! ## C6: idempotence of reset -/

/-- C6: calling `reset` twice yields a state identical to calling it once,
and after a reset the time is zero, the deadlines are empty, and every process
has `runnable == is_comb` and `passive == True`. -/
theorem c6_thm (s : SimState) :
    s.reset.reset = s.reset ∧
    s.reset.timeline.now = 0 ∧
    s.reset.timeline.deadlines = [] ∧
    ∀ p ∈ s.reset.procs, p.runnable = p.is_comb ∧ p.passive = true := by
  refine ⟨?_, rfl, rfl, ?_⟩
  · simp only [SimState.reset, Timeline.reset, List.map_map]
    rfl
  · intro p hp
    simp only [SimState.reset, List.mem_map] at hp
    obtain ⟨q, _, rfl⟩ := hp
    exact ⟨rfl, rfl⟩

/-- C6 witness: the reset properties evaluated on a concrete simulator
state with one process. -/
theorem c6_witness :
    SimState.reset (SimState.reset ⟨⟨4, [(0, some 5)]⟩, [⟨0, true, false, false, [], 3⟩],
        [⟨[⟨1, 0, 1, 1⟩]⟩], [], 0, []⟩)
      = SimState.reset ⟨⟨4, [(0, some 5)]⟩, [⟨0, true, false, false, [], 3⟩],
        [⟨[⟨1, 0, 1, 1⟩]⟩], [], 0, []⟩ ∧
    (Proc.reset ⟨0, true, false, false, [], 3⟩).runnable
      = (Proc.reset ⟨0, true, false, false, [], 3⟩).is_comb :=
  ⟨(c6_thm _).1,
   ((c6_thm ⟨⟨4, [(0, some 5)]⟩, [⟨0, true, false, false, [], 3⟩],
       [⟨[⟨1, 0, 1, 1⟩]⟩], [], 0, []⟩).2.2.2
     (Proc.reset ⟨0, true, false, false, [], 3⟩) (by decide)).1⟩

/-! ## C7: add_clock error handling -/

/-- C7: `add_clock` raises when a string domain is unknown and `if_exists`
is false, silently does nothing when `if_exists` is true, and raises when the
resolved domain already has a clock; in every failure case the process set
and the clocked set are returned unchanged. -/
theorem c7_thm (st : CoreState) (name : String) (cd pid : ℕ) (b : Bool) :
    (st.domains.lookup name = none →
      addClock st (Sum.inl name) false pid
        = (st, some "Domain is not present in simulation")) ∧
    (st.domains.lookup name = none →
      addClock st (Sum.inl name) true pid = (st, none)) ∧
    (st.clocked.contains cd = true →
      addClock st (Sum.inr cd) b pid
        = (st, some "Domain already has a clock driving it")) ∧
    (st.domains.lookup name = some cd → st.clocked.contains cd = true →
      addClock st (Sum.inl name) b pid
        = (st, some "Domain already has a clock driving it")) := by
  refine ⟨fun h => ?_, fun h => ?_, fun h => ?_, fun h hc => ?_⟩
  · simp [addClock, h]
  · simp [addClock, h]
  · have h' : cd ∈ st.clocked := by simpa using h
    simp [addClock, addClockResolved, h']
  · have h' : cd ∈ st.clocked := by simpa using hc
    simp [addClock, addClockResolved, h, h']

/-- C7 witness: the three failure modes and the silent mode evaluated on a
concrete core state. -/
theorem c7_witness :
    addClock ⟨[("sync", 0)], [0], [1]⟩ (Sum.inl "pix") false 2
      = (⟨[("sync", 0)], [0], [1]⟩, some "Domain is not present in simulation") ∧
    addClock ⟨[("sync", 0)], [0], [1]⟩ (Sum.inl "pix") true 2
      = (⟨[("sync", 0)], [0], [1]⟩, none) ∧
    addClock ⟨[("sync", 0)], [0], [1]⟩ (Sum.inr 0) false 2
      = (⟨[("sync", 0)], [0], [1]⟩, some "Domain already has a clock driving it") ∧
    addClock ⟨[("sync", 0)], [0], [1]⟩ (Sum.inl "sync") false 2
      = (⟨[("sync", 0)], [0], [1]⟩, some "Domain already has a clock driving it") :=
  ⟨(c7_thm ⟨[("sync", 0)], [0], [1]⟩ "pix" 0 2 false).1 (by decide),
   (c7_thm ⟨[("sync", 0)], [0], [1]⟩ "pix" 0 2 false).2.1 (by decide),
   (c7_thm ⟨[("sync", 0)], [0], [1]⟩ "pix" 0 2 false).2.2.1 (by decide),
   (c7_thm ⟨[("sync", 0)], [0], [1]⟩ "sync" 0 2 false).2.2.2 (by decide) (by decide)⟩

/-! ## C8: write_vcd error handling -/

/-- C8: `write_vcd` fails exactly when simulated time is nonzero, returning
the state untouched; at time zero it succeeds and registers one writer. -/
theorem c8_thm (s : SimState) :
    (s.timeline.now ≠ 0 →
      writeVcd s = (s, some "Cannot start writing waveforms after advancing simulation time")) ∧
    (s.timeline.now = 0 →
      writeVcd s = ({ s with vcdWriters := s.vcdWriters + 1 }, none)) := by
  refine ⟨fun h => ?_, fun h => ?_⟩
  · simp [writeVcd, h]
  · simp [writeVcd, h]

/-- C8 witness: `write_vcd` evaluated at a nonzero and at a zero time. -/
theorem c8_witness :
    writeVcd ⟨⟨1, []⟩, [], [], [], 0, []⟩
      = (⟨⟨1, []⟩, [], [], [], 0, []⟩,
         some "Cannot start writing waveforms after advancing simulation time") ∧
    writeVcd ⟨⟨0, []⟩, [], [], [], 0, []⟩ = (⟨⟨0, []⟩, [], [], [], 1, []⟩, none) :=
  ⟨(c8_thm ⟨⟨1, []⟩, [], [], [], 0, []⟩).1 (by norm_num),
   (c8_thm ⟨⟨0, []⟩, [], [], [], 0, []⟩).2 rfl⟩

/-! ## C9: Timeline.at precondition -/

/-- C9: `Timeline.at` fails exactly when the process already has a pending
deadline, leaving the mapping unchanged; otherwise it appends exactly the
given deadline and preserves the at-most-once invariant on processes. -/
theorem c9_thm (tl : Timeline) (run_at : Option ℚ) (pid : ℕ) :
    (tl.deadlines.any (fun e => e.1 == pid) = true →
      tl.atTime run_at pid = (tl, false)) ∧
    (tl.deadlines.any (fun e => e.1 == pid) = false →
      tl.atTime run_at pid
          = ({ tl with deadlines := tl.deadlines ++ [(pid, run_at)] }, true) ∧
      ((tl.deadlines.map Prod.fst).Nodup →
        (((tl.atTime run_at pid).1.deadlines).map Prod.fst).Nodup)) := by
  refine ⟨fun h => ?_, fun h => ⟨?_, fun hnd => ?_⟩⟩
  · simp [Timeline.atTime, h]
  · simp [Timeline.atTime, h]
  · have hmem : pid ∉ tl.deadlines.map Prod.fst := by
      simp only [List.any_eq_false, beq_iff_eq] at h
      intro hc
      obtain ⟨e, he, hfst⟩ := List.mem_map.mp hc
      exact h e he hfst
    simp only [Timeline.atTime, h, Bool.false_eq_true, if_false, List.map_append]
    simpa [List.Nodup] using List.Nodup.append hnd (List.nodup_singleton pid)
      (by simpa [List.disjoint_singleton] using hmem)

/-- C9 witness: scheduling on a concrete timeline, in both the failing and
the succeeding case. -/
theorem c9_witness :
    Timeline.atTime ⟨0, [(3, some 1)]⟩ (some 2) 3 = (⟨0, [(3, some 1)]⟩, false) ∧
    Timeline.atTime ⟨0, [(3, some 1)]⟩ (some 2) 4
      = (⟨0, [(3, some 1), (4, some 2)]⟩, true) ∧
    ((Timeline.atTime ⟨0, [(3, some 1)]⟩ (some 2) 4).1.deadlines.map Prod.fst).Nodup :=
  ⟨(c9_thm ⟨0, [(3, some 1)]⟩ (some 2) 3).1 (by decide),
   ((c9_thm ⟨0, [(3, some 1)]⟩ (some 2) 4).2 (by decide)).1,
   ((c9_thm ⟨0, [(3, some 1)]⟩ (some 2) 4).2 (by decide)).2 (by decide)⟩

/-! ## C2: trigger semantics of commit -/

lemma commitMark_eq_map (sl : List SignalState) :
    ∀ (t : List ((ℕ × ℕ) × Option ℕ)) (ps : List Proc),
      commitMark t sl ps = ps.map (fun p =>
        if t.any (fun e => p.pid == e.1.1 && triggerCond sl e.1.2 e.2) then
          { p with runnable := true } else p) := by
  intro t
  induction t with
  | nil => intro ps; simp [commitMark]
  | cons e rest ih =>
      intro ps
      have hstep : commitMark (e :: rest) sl ps
          = commitMark rest sl
              (if triggerCond sl e.1.2 e.2 then
                ps.map (fun p => if p.pid == e.1.1 then { p with runnable := true } else p)
              else ps) := rfl
      rw [hstep]
      cases hcond : triggerCond sl e.1.2 e.2 with
      | false =>
          simp only [Bool.false_eq_true, if_false]
          rw [ih ps]
          apply List.map_congr_left
          intro p _
          apply if_congr _ rfl rfl
          simp only [List.any_cons, Bool.or_eq_true, Bool.and_eq_true, hcond]
          simp
      | true =>
          simp only [if_true]
          rw [ih, List.map_map]
          apply List.map_congr_left
          intro p _
          simp only [Function.comp_apply]
          cases hm : p.pid == e.1.1 with
          | false =>
              simp only [hm, Bool.false_eq_true, if_false]
              apply if_congr _ rfl rfl
              simp only [List.any_cons, Bool.or_eq_true, Bool.and_eq_true, hm]
              simp
          | true =>
              simp only [hm, if_true]
              have hc : ((e :: rest).any
                  fun e' => p.pid == e'.1.1 && triggerCond sl e'.1.2 e'.2) = true := by
                simp only [List.any_cons, Bool.or_eq_true, Bool.and_eq_true]
                exact Or.inl ⟨hm, hcond⟩
              rw [hc]
              simp

/-- A simulator state whose single watched signal sits stably at the trigger
target value 5: committed value 5, pending value 5. -/
def c2St : SimState :=
  { timeline := ⟨0, []⟩,
    procs := [⟨0, false, false, true, [], 0⟩],
    slots := [⟨[⟨4, 0, 5, 5⟩]⟩],
    triggers := [((0, 0), some 5)],
    vcdWriters := 0,
    vcdSamples := [] }

/-- C2 counterexample: with an exact trigger of value 5 on a signal whose
committed and pending value are both 5 (no transition into 5), `commit`
still marks the watching process runnable. -/
theorem c2_counterexample :
    (c2St.slots.getD 0 ⟨[]⟩).currVal = 5 ∧
    (c2St.slots.getD 0 ⟨[]⟩).nextVal = 5 ∧
    c2St.triggers = [((0, 0), some 5)] ∧
    (c2St.procs.getD 0 default).runnable = false ∧
    ((SimState.commit c2St).1.procs.getD 0 default).runnable = true := by
  decide

/-- C2 (amended): after `commit`, a process is runnable exactly when it
already was or some of its trigger entries fires, where a trigger of `None`
fires exactly when the pending value differs from the committed value, and an
exact trigger of value V fires exactly when the pending value equals V,
regardless of the committed value. -/
theorem c2_thm (s : SimState) :
    (SimState.commit s).1.procs
        = s.procs.map (fun p =>
            if s.triggers.any (fun e => p.pid == e.1.1 && triggerCond s.slots e.1.2 e.2)
            then { p with runnable := true } else p) ∧
    (∀ idx, triggerCond s.slots idx none
        = ((s.slots.getD idx ⟨[]⟩).nextVal != (s.slots.getD idx ⟨[]⟩).currVal)) ∧
    (∀ idx v, triggerCond s.slots idx (some v)
        = ((s.slots.getD idx ⟨[]⟩).nextVal == v)) :=
  ⟨commitMark_eq_map s.slots s.triggers s.procs, fun _ => rfl, fun _ _ => rfl⟩

/-! ## C1 and C3: structure of _real_step -/

/-- Projection of a process to its identity and run count. -/
def projRuns (p : Proc) : ℕ × ℕ := (p.pid, p.runs)

lemma runProcsAux_fst :
    ∀ (ps : List Proc) (slots : List SignalState),
      (runProcsAux ps slots).1
        = ps.map (fun p =>
            if p.runnable then { p with runnable := false, runs := p.runs + 1 } else p) := by
  intro ps
  induction ps with
  | nil => intro slots; rfl
  | cons p rest ih =>
      intro slots
      cases hr : p.runnable with
      | true => simp [runProcsAux, hr, ih]
      | false => simp [runProcsAux, hr, ih]

lemma commitMark_projRuns (t : List ((ℕ × ℕ) × Option ℕ)) (sl : List SignalState)
    (ps : List Proc) :
    (commitMark t sl ps).map projRuns = ps.map projRuns := by
  rw [commitMark_eq_map, List.map_map]
  apply List.map_congr_left
  intro p _
  simp only [Function.comp_apply]
  split <;> rfl

lemma settleLoop_preserve :
    ∀ (fuel : ℕ) (s s' : SimState), settleLoop fuel s = some s' →
      s'.procs.map projRuns = s.procs.map projRuns ∧
      s'.timeline = s.timeline ∧ s'.vcdWriters = s.vcdWriters ∧
      s'.vcdSamples = s.vcdSamples := by
  intro fuel
  induction fuel with
  | zero => intro s s' h; exact absurd h (by simp [settleLoop])
  | succ n ih =>
      intro s s' h
      have hun : settleLoop (n + 1) s
          = if (SimState.commit s).2 = true then settleLoop n (SimState.commit s).1
            else some (SimState.commit s).1 := rfl
      rw [hun] at h
      cases hc : (SimState.commit s).2 with
      | true =>
          rw [hc] at h
          simp only [if_true] at h
          obtain ⟨h1, h2, h3, h4⟩ := ih (SimState.commit s).1 s' h
          refine ⟨?_, h2, h3, h4⟩
          rw [h1]
          exact commitMark_projRuns s.triggers s.slots s.procs
      | false =>
          rw [hc] at h
          simp only [Bool.false_eq_true, if_false, Option.some.injEq] at h
          subst h
          exact ⟨commitMark_projRuns s.triggers s.slots s.procs, rfl, rfl, rfl⟩

lemma settleLoop_fixpoint :
    ∀ (fuel : ℕ) (s s' : SimState), settleLoop fuel s = some s' →
      ∀ ss ∈ s'.slots, ∀ pt ∈ ss.parts, pt.next = pt.curr := by
  intro fuel
  induction fuel with
  | zero => intro s s' h; exact absurd h (by simp [settleLoop])
  | succ n ih =>
      intro s s' h
      have hun : settleLoop (n + 1) s
          = if (SimState.commit s).2 = true then settleLoop n (SimState.commit s).1
            else some (SimState.commit s).1 := rfl
      rw [hun] at h
      cases hc : (SimState.commit s).2 with
      | true =>
          rw [hc] at h
          simp only [if_true] at h
          exact ih (SimState.commit s).1 s' h
      | false =>
          rw [hc] at h
          simp only [Bool.false_eq_true, if_false, Option.some.injEq] at h
          subst h
          intro ss hss pt hpt
          have hslots : (SimState.commit s).1.slots
              = s.slots.map (fun sg => ⟨sg.parts.map (fun pt => { pt with curr := pt.next })⟩) :=
            rfl
          rw [hslots] at hss
          obtain ⟨sg, _, rfl⟩ := List.mem_map.mp hss
          obtain ⟨pt0, _, rfl⟩ := List.mem_map.mp hpt
          rfl

lemma realStep_eq (fuel : ℕ) (s : SimState) :
    realStep fuel s = match settleLoop fuel
        { s with procs := (runProcsAux s.procs s.slots).1,
                 slots := (runProcsAux s.procs s.slots).2 } with
      | none => none
      | some s2 => some (vcdSampleAll s2) := rfl

/-- C1 (amended): one `_real_step` runs each process exactly once if it was
runnable on entry and not at all otherwise — a process re-activated by a
commit trigger check is left runnable for the next step, not re-run within
this one — and the step returns only once a commit pass found every staged
value equal to the committed one. -/
theorem c1_thm (fuel : ℕ) (s s' : SimState) (h : realStep fuel s = some s') :
    s'.procs.map (fun p => (p.pid, p.runs))
        = s.procs.map (fun p => (p.pid, if p.runnable then p.runs + 1 else p.runs)) ∧
    ∀ ss ∈ s'.slots, ∀ pt ∈ ss.parts, pt.next = pt.curr := by
  rw [realStep_eq] at h
  cases hset : settleLoop fuel
      { s with procs := (runProcsAux s.procs s.slots).1,
               slots := (runProcsAux s.procs s.slots).2 } with
  | none => rw [hset] at h; exact absurd h (by simp)
  | some s2 =>
      rw [hset] at h
      simp only [Option.some.injEq] at h
      subst h
      obtain ⟨h1, _, _, _⟩ := settleLoop_preserve fuel _ s2 hset
      constructor
      · show s2.procs.map projRuns = _
        rw [h1]
        show (runProcsAux s.procs s.slots).1.map projRuns = _
        rw [runProcsAux_fst, List.map_map]
        apply List.map_congr_left
        intro p _
        cases hr : p.runnable <;> simp [projRuns, hr]
      · intro ss hss pt hpt
        exact settleLoop_fixpoint fuel _ s2 hset ss hss pt hpt

/-- A state with process 0 runnable and staging value 1 into slot 0, and
process 1 idle but watching slot 0 with an exact trigger of 1. -/
def c1St : SimState :=
  { timeline := ⟨0, []⟩,
    procs := [⟨0, false, true, true, [(0, 1)], 0⟩, ⟨1, false, false, true, [], 0⟩],
    slots := [⟨[⟨1, 0, 0, 0⟩]⟩],
    triggers := [((1, 0), some 1)],
    vcdWriters := 0,
    vcdSamples := [] }

/-- The state `c1St` settles to in one `_real_step`. -/
def c1After : SimState := (realStep 3 c1St).getD default

/-- C1 counterexample: process 1 starts not runnable; during the step the
commit trigger check re-activates it (it ends the step runnable), yet its
`run` was never invoked within the step. -/
theorem c1_counterexample :
    realStep 3 c1St = some c1After ∧
    (c1St.procs.getD 1 default).runnable = false ∧
    (c1After.procs.getD 1 default).runnable = true ∧
    (c1After.procs.getD 1 default).runs = 0 := by
  exact ⟨rfl, rfl, rfl, rfl⟩

/-- C1 witness: the amended step theorem evaluated at the concrete state. -/
theorem c1_witness :
    c1After.procs.map (fun p => (p.pid, p.runs))
      = c1St.procs.map (fun p => (p.pid, if p.runnable then p.runs + 1 else p.runs)) :=
  (c1_thm 3 c1St c1After rfl).1

/-- C3 (amended): on every completed `_real_step`, each open waveform writer
is sampled at tick `int(now * 10 ** 10)` — Python `int()` truncation, which
equals the floor for the nonnegative times that occur — with the simulated
time unchanged by the step. -/
theorem c3_thm (fuel : ℕ) (s s' : SimState) (h : realStep fuel s = some s') :
    s'.vcdSamples = s.vcdSamples
        ++ List.replicate s.vcdWriters (pyInt (s.timeline.now * 10 ^ 10)) ∧
    s'.timeline = s.timeline ∧
    ∀ q : ℚ, 0 ≤ q → pyInt q = ⌊q⌋ := by
  rw [realStep_eq] at h
  cases hset : settleLoop fuel
      { s with procs := (runProcsAux s.procs s.slots).1,
               slots := (runProcsAux s.procs s.slots).2 } with
  | none => rw [hset] at h; exact absurd h (by simp)
  | some s2 =>
      rw [hset] at h
      simp only [Option.some.injEq] at h
      subst h
      obtain ⟨_, h2, h3, h4⟩ := settleLoop_preserve fuel _ s2 hset
      refine ⟨?_, ?_, fun q hq => ?_⟩
      · show s2.vcdSamples ++ List.replicate s2.vcdWriters (pyInt (s2.timeline.now * 10 ^ 10)) = _
        rw [h2, h3, h4]
      · show s2.timeline = s.timeline
        rw [h2]
      · rw [pyInt, if_pos hq]

/-- A state with one open waveform writer at simulated time 1.5e-10: the
tick `now * 10 ** 10` is the half-integer 3/2. -/
def c3St : SimState :=
  { timeline := ⟨3 / 20000000000, []⟩, procs := [], slots := [], triggers := [],
    vcdWriters := 1, vcdSamples := [] }

/-- The state `c3St` settles to in one `_real_step`. -/
def c3After : SimState := (realStep 1 c3St).getD default

/-- C3 counterexample: at time 1.5e-10, the step samples tick 1 (truncation
of 3/2), while rounding 3/2 to the nearest integer gives 2. -/
theorem c3_counterexample :
    realStep 1 c3St = some c3After ∧
    c3After.vcdSamples = [pyInt (c3St.timeline.now * 10 ^ 10)] ∧
    pyInt (c3St.timeline.now * 10 ^ 10) = 1 ∧
    round (c3St.timeline.now * 10 ^ 10) = 2 := by
  have hq : c3St.timeline.now * 10 ^ 10 = 3 / 2 := by
    show (3 : ℚ) / 20000000000 * 10 ^ 10 = 3 / 2
    norm_num
  refine ⟨rfl, rfl, ?_, ?_⟩
  · rw [hq, pyInt, if_pos (by norm_num), Int.floor_eq_iff]
    norm_num
  · rw [hq, round_eq, Int.floor_eq_iff]
    norm_num

/-- A state with one open waveform writer at simulated time zero. -/
def c3WSt : SimState :=
  { timeline := ⟨0, []⟩, procs := [], slots := [], triggers := [],
    vcdWriters := 1, vcdSamples := [] }

/-- The state `c3WSt` settles to in one `_real_step`. -/
def c3WAfter : SimState := (realStep 1 c3WSt).getD default

/-- C3 witness: the amended sampling theorem evaluated at a concrete state. -/
theorem c3_witness :
    c3WAfter.vcdSamples = c3WSt.vcdSamples
        ++ List.replicate c3WSt.vcdWriters (pyInt (c3WSt.timeline.now * 10 ^ 10)) ∧
    pyInt 2 = ⌊(2 : ℚ)⌋ :=
  ⟨(c3_thm 1 c3WSt c3WAfter rfl).1, (c3_thm 1 c3WSt c3WAfter rfl).2.2 2 (by norm_num)⟩

/-! ## C4 and C5: Timeline.advance -/

lemma advanceScan_sound (now : ℚ) :
    ∀ (L : List (ℕ × Option ℚ)) (acc : List ℕ) (nd : Option ℚ),
      (∀ e ∈ L, ∀ d, e.2 = some d → now ≤ d) →
      (∀ m, nd = some m → now ≤ m) →
      ∃ pids nd', advanceScan now L acc nd = some (pids, nd') ∧
        ∀ v, nd' = some v →
          now ≤ v ∧ (∀ m, nd = some m → v ≤ m) ∧
          ∀ e ∈ L, ∀ d, e.2 = some d → v ≤ d := by
  intro L
  induction L with
  | nil =>
      intro acc nd _ hnd
      refine ⟨acc, nd, rfl, fun v hv => ⟨hnd v hv, ?_, ?_⟩⟩
      · intro m hm
        rw [hv] at hm
        cases hm
        exact le_refl v
      · intro e he
        exact absurd he (List.not_mem_nil e)
  | cons hd rest ih =>
      obtain ⟨pid, od⟩ := hd
      intro acc nd hL hnd
      have hrest : ∀ e ∈ rest, ∀ d, e.2 = some d → now ≤ d :=
        fun e he => hL e (List.mem_cons_of_mem _ he)
      cases od with
      | none =>
          refine ⟨_, some now, rfl, fun v hv => ?_⟩
          have hv' : v = now := (Option.some.inj hv).symm
          subst hv'
          refine ⟨le_refl v, fun m hm => hnd m hm, ?_⟩
          intro e he d hd
          rcases List.mem_cons.mp he with rfl | he'
          · cases hd
          · exact hrest e he' d hd
      | some d =>
          have hnowd : now ≤ d := hL (pid, some d) (List.mem_cons_self _ _) d rfl
          cases nd with
          | none =>
              have hd' : ∀ m : ℚ, (some d : Option ℚ) = some m → now ≤ m := by
                intro m hm
                cases hm
                exact hnowd
              obtain ⟨pids, nd', hscan, hprop⟩ := ih (acc ++ [pid]) (some d) hrest hd'
              refine ⟨pids, nd', ?_, fun v hv => ?_⟩
              · show advanceScan now ((pid, some d) :: rest) acc none = some (pids, nd')
                simp only [advanceScan, if_pos hnowd]
                exact hscan
              · obtain ⟨h1, h2, h3⟩ := hprop v hv
                refine ⟨h1, ?_, ?_⟩
                · intro m hm
                  exact absurd hm (by simp)
                · intro e he dd hdd
                  rcases List.mem_cons.mp he with rfl | he'
                  · cases hdd
                    exact h2 _ rfl
                  · exact h3 e he' dd hdd
          | some m =>
              have hdle : ∀ m' : ℚ, (some d : Option ℚ) = some m' → now ≤ m' := by
                intro m' hm'
                cases hm'
                exact hnowd
              by_cases hdm : d ≤ m
              · obtain ⟨pids, nd', hscan, hprop⟩ :=
                  ih ((if d < m then [] else acc) ++ [pid]) (some d) hrest hdle
                refine ⟨pids, nd', ?_, fun v hv => ?_⟩
                · show advanceScan now ((pid, some d) :: rest) acc (some m) = some (pids, nd')
                  simp only [advanceScan, if_pos hdm, if_pos hnowd]
                  exact hscan
                · obtain ⟨h1, h2, h3⟩ := hprop v hv
                  have hvd : v ≤ d := h2 d rfl
                  refine ⟨h1, ?_, ?_⟩
                  · intro m' hm'
                    cases hm'
                    exact le_trans hvd hdm
                  · intro e he dd hdd
                    rcases List.mem_cons.mp he with rfl | he'
                    · cases hdd
                      exact hvd
                    · exact h3 e he' dd hdd
              · obtain ⟨pids, nd', hscan, hprop⟩ := ih acc (some m) hrest hnd
                refine ⟨pids, nd', ?_, fun v hv => ?_⟩
                · show advanceScan now ((pid, some d) :: rest) acc (some m) = some (pids, nd')
                  simp only [advanceScan, if_neg hdm]
                  exact hscan
                · obtain ⟨h1, h2, h3⟩ := hprop v hv
                  have hvm : v ≤ m := h2 m rfl
                  refine ⟨h1, ?_, ?_⟩
                  · intro m' hm'
                    cases hm'
                    exact hvm
                  · intro e he dd hdd
                    rcases List.mem_cons.mp he with rfl | he'
                    · cases hdd
                      exact le_trans hvm (le_of_lt (lt_of_not_le hdm))
                    · exact h3 e he' dd hdd

/-- C5: assuming every pending timed deadline is at or after `now`,
`advance` succeeds, never moves `now` past any pending timed deadline, never
decreases `now`, and with no pending deadline returns false leaving the
timeline untouched. -/
theorem c5_thm (tl : Timeline)
    (H : ∀ e ∈ tl.deadlines, ∀ d, e.2 = some d → tl.now ≤ d) :
    ∃ r, tl.advance = some r ∧
      tl.now ≤ r.1.now ∧
      (∀ e ∈ tl.deadlines, ∀ d, e.2 = some d → r.1.now ≤ d) ∧
      (tl.deadlines = [] → r.1 = tl ∧ r.2.2 = false) := by
  obtain ⟨pids, nd', hscan, hprop⟩ :=
    advanceScan_sound tl.now tl.deadlines [] none H (fun m hm => by cases hm)
  have hadv : tl.advance
      = if pids.isEmpty then some (tl, [], false)
        else some ({ now := nd'.getD tl.now,
                     deadlines := tl.deadlines.filter (fun e => !(pids.contains e.1)) },
                   pids, true) := by
    rw [Timeline.advance, hscan]
  cases hemp : pids.isEmpty with
  | true =>
      simp only [hemp, if_true] at hadv
      exact ⟨(tl, [], false), hadv, le_refl _, fun e he d hd => H e he d hd,
        fun _ => ⟨rfl, rfl⟩⟩
  | false =>
      simp only [hemp, Bool.false_eq_true, if_false] at hadv
      refine ⟨_, hadv, ?_, ?_, ?_⟩
      · show tl.now ≤ nd'.getD tl.now
        cases hnd' : nd' with
        | none => exact le_refl _
        | some v => exact (hprop v hnd').1
      · intro e he d hd
        show nd'.getD tl.now ≤ d
        cases hnd' : nd' with
        | none => exact H e he d hd
        | some v => exact (hprop v hnd').2.2 e he d hd
      · intro hdead
        rw [hdead] at hscan
        have hp : pids = [] := by
          have h2 := Option.some.inj hscan
          exact (congrArg Prod.fst h2).symm
        subst hp
        cases hemp

/-- C5 witness: `advance` on a concrete timeline with two timed deadlines
and an immediate deadline ahead of `now`. -/
theorem c5_witness :
    ∃ r, Timeline.advance ⟨1, [(0, some 2), (1, none), (2, some 3)]⟩ = some r ∧
      (1 : ℚ) ≤ r.1.now ∧
      (∀ e ∈ ([(0, some 2), (1, none), (2, some 3)] : List (ℕ × Option ℚ)),
        ∀ d, e.2 = some d → r.1.now ≤ d) ∧
      (([(0, some 2), (1, none), (2, some 3)] : List (ℕ × Option ℚ)) = [] →
        r.1 = ⟨1, [(0, some 2), (1, none), (2, some 3)]⟩ ∧ r.2.2 = false) :=
  c5_thm ⟨1, [(0, some 2), (1, none), (2, some 3)]⟩ (by
    intro e he d hd
    fin_cases he <;> simp at hd <;> subst hd <;> norm_num)

lemma advanceScan_pq (now : ℚ) (P Q : ℕ) :
    ∀ (L : List (ℕ × Option ℚ)) (acc : List ℕ) (nd : Option ℚ),
      (∀ e ∈ L, ∃ d, e.2 = some d ∧ now ≤ d) →
      (∀ m, nd = some m → now ≤ m) →
      ∃ pids, advanceScan now (L ++ [(P, some now), (Q, some now)]) acc nd
          = some (pids, some now) ∧ P ∈ pids ∧ Q ∈ pids := by
  intro L
  induction L with
  | nil =>
      intro acc nd _ hnd
      cases nd with
      | none =>
          refine ⟨(acc ++ [P]) ++ [Q], ?_, by simp, by simp⟩
          show advanceScan now [(P, some now), (Q, some now)] acc none = _
          simp [advanceScan]
      | some m =>
          have hm : now ≤ m := hnd m rfl
          refine ⟨((if now < m then [] else acc) ++ [P]) ++ [Q], ?_, by simp, by simp⟩
          show advanceScan now [(P, some now), (Q, some now)] acc (some m) = _
          simp [advanceScan, hm]
  | cons hd rest ih =>
      obtain ⟨pid, od⟩ := hd
      intro acc nd hL hnd
      obtain ⟨d, hod, hnowd⟩ := hL (pid, od) (List.mem_cons_self _ _)
      have hod' : od = some d := hod
      subst hod'
      have hrest : ∀ e ∈ rest, ∃ d', e.2 = some d' ∧ now ≤ d' :=
        fun e he => hL e (List.mem_cons_of_mem _ he)
      have hdle : ∀ m' : ℚ, (some d : Option ℚ) = some m' → now ≤ m' := by
        intro m' hm'
        cases hm'
        exact hnowd
      cases nd with
      | none =>
          obtain ⟨pids, hscan, hPm, hQm⟩ := ih (acc ++ [pid]) (some d) hrest hdle
          refine ⟨pids, ?_, hPm, hQm⟩
          show advanceScan now (((pid, some d) :: rest) ++ [(P, some now), (Q, some now)])
              acc none = some (pids, some now)
          rw [List.cons_append]
          simp only [advanceScan, if_pos hnowd]
          exact hscan
      | some m =>
          by_cases hdm : d ≤ m
          · obtain ⟨pids, hscan, hPm, hQm⟩ :=
              ih ((if d < m then [] else acc) ++ [pid]) (some d) hrest hdle
            refine ⟨pids, ?_, hPm, hQm⟩
            show advanceScan now (((pid, some d) :: rest) ++ [(P, some now), (Q, some now)])
                acc (some m) = some (pids, some now)
            rw [List.cons_append]
            simp only [advanceScan, if_pos hdm, if_pos hnowd]
            exact hscan
          · obtain ⟨pids, hscan, hPm, hQm⟩ := ih acc (some m) hrest hnd
            refine ⟨pids, ?_, hPm, hQm⟩
            show advanceScan now (((pid, some d) :: rest) ++ [(P, some now), (Q, some now)])
                acc (some m) = some (pids, some now)
            rw [List.cons_append]
            simp only [advanceScan, if_neg hdm]
            exact hscan

/-- C4: with pending deadlines all timed at or after `now`, scheduling P with
`delay(None, P)` and Q with `delay(0, Q)` at the same `now` makes one
`advance()` call mark both P and Q runnable, remove both from the pending
deadlines, and leave `now` unchanged. -/
theorem c4_thm (tl : Timeline) (P Q : ℕ) (hPQ : P ≠ Q)
    (hP : tl.deadlines.any (fun e => e.1 == P) = false)
    (hQ : tl.deadlines.any (fun e => e.1 == Q) = false)
    (hall : ∀ e ∈ tl.deadlines, ∃ d, e.2 = some d ∧ tl.now ≤ d) :
    ∃ tl' pids,
      tl.delay none P
        = ({ tl with deadlines := tl.deadlines ++ [(P, some tl.now)] }, true) ∧
      Timeline.delay { tl with deadlines := tl.deadlines ++ [(P, some tl.now)] } (some 0) Q
        = ({ tl with deadlines := tl.deadlines ++ [(P, some tl.now), (Q, some tl.now)] },
           true) ∧
      Timeline.advance
          { tl with deadlines := tl.deadlines ++ [(P, some tl.now), (Q, some tl.now)] }
        = some (tl', pids, true) ∧
      P ∈ pids ∧ Q ∈ pids ∧ tl'.now = tl.now ∧
      ∀ e ∈ tl'.deadlines, e.1 ≠ P ∧ e.1 ≠ Q := by
  obtain ⟨pids, hscan, hPm, hQm⟩ :=
    advanceScan_pq tl.now P Q tl.deadlines [] none hall (fun m hm => by cases hm)
  have hPQb : (P == Q) = false := by simp [hPQ]
  have hpids : pids.isEmpty = false := by
    cases pids with
    | nil => exact absurd hPm (List.not_mem_nil P)
    | cons a l => rfl
  refine ⟨{ now := tl.now,
            deadlines := (tl.deadlines ++ [(P, some tl.now), (Q, some tl.now)]).filter
              (fun e => !(pids.contains e.1)) },
          pids, ?_, ?_, ?_, hPm, hQm, rfl, ?_⟩
  · simp [Timeline.delay, Timeline.atTime, hP]
  · simp [Timeline.delay, Timeline.atTime, List.any_append, hQ, hPQb, hPQ, add_zero]
  · show Timeline.advance _ = _
    rw [Timeline.advance]
    have hdl : ({ tl with deadlines := tl.deadlines ++ [(P, some tl.now), (Q, some tl.now)] }
        : Timeline).deadlines = tl.deadlines ++ [(P, some tl.now), (Q, some tl.now)] := rfl
    rw [hdl, hscan]
    simp only [hpids, Bool.false_eq_true, if_false]
    rfl
  · intro e he
    have he' := List.mem_filter.mp he
    have hnc : (pids.contains e.1) = false := by
      have := he'.2
      cases hc : pids.contains e.1
      · rfl
      · rw [hc] at this; exact absurd this (by simp)
    have hnotmem : e.1 ∉ pids := by simpa using hnc
    exact ⟨fun hEP => hnotmem (hEP ▸ hPm), fun hEQ => hnotmem (hEQ ▸ hQm)⟩

/-- C4 witness: the same-instant immediate and timed deadlines evaluated on a
concrete timeline at time 2 with one later pending deadline. -/
theorem c4_witness :
    ∃ tl' pids,
      Timeline.delay ⟨2, [(5, some 3)]⟩ none 0
        = ({ now := 2, deadlines := [(5, some 3), (0, some 2)] }, true) ∧
      Timeline.delay { now := 2, deadlines := [(5, some 3), (0, some 2)] } (some 0) 1
        = ({ now := 2, deadlines := [(5, some 3), (0, some 2), (1, some 2)] }, true) ∧
      Timeline.advance { now := 2, deadlines := [(5, some 3), (0, some 2), (1, some 2)] }
        = some (tl', pids, true) ∧
      (0 : ℕ) ∈ pids ∧ (1 : ℕ) ∈ pids ∧ tl'.now = 2 ∧
      ∀ e ∈ tl'.deadlines, e.1 ≠ 0 ∧ e.1 ≠ 1 :=
  c4_thm ⟨2, [(5, some 3)]⟩ 0 1 (by decide) (by decide) (by decide)
    (by
      intro e he
      fin_cases he
      exact ⟨3, rfl, by norm_num⟩)
